import Mathlib

/-!
Shallow embedding of `src/manifest.c` (ccache manifest handling).

Paths are modelled as byte lists (`List Nat`, each element a byte value);
C strings are NUL-terminated, so a valid path contains no 0 byte.  The
byte stream read/written by the codec is also a `List Nat` of byte values.
Machine integers are `Nat` with explicit `% 256` / width bounds where the C
code truncates.
-/

set_option maxRecDepth 4000

/-- A path is a list of byte values (the bytes of a C string, without the
terminating NUL). -/
abbrev PathB := List Nat

/-- `struct file_hash` from ccache: 16-byte digest plus a 32-bit size. -/
structure file_hash where
  hash : List Nat
  size : Nat
deriving DecidableEq

/-- `struct file_info` from manifest.c: index into `files`, 16-byte hash,
32-bit size. -/
structure file_info where
  index : Nat
  hash : List Nat
  size : Nat
deriving DecidableEq

/-- `struct object` from manifest.c: the indexes into `file_infos` plus the
object's own hash. -/
structure object where
  file_info_indexes : List Nat
  hash : file_hash
deriving DecidableEq

/-- `struct manifest` from manifest.c.  The C counts `n_files`,
`n_file_infos`, `n_objects` are the lengths of the lists. -/
structure manifest where
  files : List PathB
  file_infos : List file_info
  objects : List object
deriving DecidableEq

/-- The empty manifest (`read_manifest` result for a zero-length file). -/
def manifest.empty : manifest := ⟨[], [], []⟩

/-- `MAGIC` constant from manifest.c. -/
def MAGIC : Nat := 0x63436d46

/-- `VERSION` constant from manifest.c. -/
def VERSION : Nat := 0

/-! ## Reading (the `READ_INT` / `READ_STR` / `READ_BYTES` macros and
`read_manifest`) -/

/-- Accumulating core of the `READ_INT` macro: read `n` bytes big-endian,
`(var) <<= 8; (var) |= ch_ & 0xFF`.  Returns `none` on EOF. -/
def readIntAux : Nat → Nat → List Nat → Option (Nat × List Nat)
  | 0, acc, s => some (acc, s)
  | _ + 1, _, [] => none
  | n + 1, acc, b :: s => readIntAux n (acc * 256 + b % 256) s

/-- `READ_INT(size, var)`: read `size` bytes as a big-endian integer. -/
def readInt (n : Nat) (s : List Nat) : Option (Nat × List Nat) :=
  readIntAux n 0 s

/-- Core of the `READ_STR` macro: read bytes into a 1024-byte buffer until a
NUL; fail on EOF or if 1024 bytes are read without finding a NUL. -/
def readStrAux : Nat → List Nat → Option (PathB × List Nat)
  | 0, _ => none
  | _ + 1, [] => none
  | fuel + 1, b :: s =>
    if b % 256 = 0 then some ([], s)
    else (readStrAux fuel s).map fun r => (b % 256 :: r.1, r.2)

/-- `READ_STR(var)`: read a NUL-terminated string of at most 1024 bytes
(including the terminator). -/
def readStr (s : List Nat) : Option (PathB × List Nat) :=
  readStrAux 1024 s

/-- `READ_BYTES(n, var)`: read `n` raw bytes. -/
def readBytes : Nat → List Nat → Option (List Nat × List Nat)
  | 0, s => some ([], s)
  | _ + 1, [] => none
  | n + 1, b :: s => (readBytes n s).map fun r => (b % 256 :: r.1, r.2)

/-- Read `n` items with an item reader `r` (the counted `for` loops of
`read_manifest`). -/
def readListN (r : List Nat → Option (α × List Nat)) :
    Nat → List Nat → Option (List α × List Nat)
  | 0, s => some ([], s)
  | n + 1, s =>
    match r s with
    | none => none
    | some (a, s') =>
      match readListN r n s' with
      | none => none
      | some (as_, s'') => some (a :: as_, s'')

/-- One `file_info` record as read by `read_manifest`: 2-byte index, 16-byte
hash, 4-byte size. -/
def readFileInfo (s : List Nat) : Option (file_info × List Nat) :=
  match readInt 2 s with
  | none => none
  | some (idx, s1) =>
    match readBytes 16 s1 with
    | none => none
    | some (h, s2) =>
      match readInt 4 s2 with
      | none => none
      | some (sz, s3) => some (⟨idx, h, sz⟩, s3)

/-- One `object` record as read by `read_manifest`: 2-byte count, that many
2-byte indexes, 16-byte hash, 4-byte size. -/
def readObject (s : List Nat) : Option (object × List Nat) :=
  match readInt 2 s with
  | none => none
  | some (m, s1) =>
    match readListN (readInt 2) m s1 with
    | none => none
    | some (idxs, s2) =>
      match readBytes 16 s2 with
      | none => none
      | some (h, s3) =>
        match readInt 4 s3 with
        | none => none
        | some (sz, s4) => some (⟨idxs, ⟨h, sz⟩⟩, s4)

/-- `read_manifest`: a zero-length stream yields the empty manifest (the
"new file" case); otherwise magic and version are checked and the three
sections are read.  Trailing bytes are ignored, as in the C code.  The C
code performs no bounds check on any index it reads. -/
def read_manifest (s : List Nat) : Option manifest :=
  if s = [] then some manifest.empty
  else
    match readInt 4 s with
    | none => none
    | some (magic, s1) =>
      if magic ≠ MAGIC then none
      else
        match readInt 2 s1 with
        | none => none
        | some (version, s2) =>
          if version ≠ VERSION then none
          else
            match readInt 2 s2 with
            | none => none
            | some (nf, s3) =>
              match readListN readStr nf s3 with
              | none => none
              | some (fs, s4) =>
                match readInt 2 s4 with
                | none => none
                | some (nfi, s5) =>
                  match readListN readFileInfo nfi s5 with
                  | none => none
                  | some (fis, s6) =>
                    match readInt 2 s6 with
                    | none => none
                    | some (no, s7) =>
                      match readListN readObject no s7 with
                      | none => none
                      | some (objs, _) => some ⟨fs, fis, objs⟩

/-! ## Writing (the `WRITE_INT` / `WRITE_STR` / `WRITE_BYTES` macros and
`write_manifest`) -/

/-- `WRITE_INT(size, var)`: write `size` bytes big-endian; each byte is
`(var >> (8*(size-i-1)))` truncated to 8 bits by `putc`.  A value that does
not fit in `size` bytes is silently truncated to its low `size` bytes. -/
def writeInt : Nat → Nat → List Nat
  | 0, _ => []
  | n + 1, v => (v >>> (8 * n)) % 256 :: writeInt n v

/-- `WRITE_STR(var)`: the bytes of the string followed by a NUL. -/
def writeStr (p : PathB) : List Nat := p ++ [0]

/-- `WRITE_BYTES(n, var)`: write the bytes; `putc` keeps the low 8 bits. -/
def writeBytes (h : List Nat) : List Nat := h.map (· % 256)

/-- One `file_info` record as written by `write_manifest`. -/
def writeFileInfo (fi : file_info) : List Nat :=
  writeInt 2 fi.index ++ writeBytes fi.hash ++ writeInt 4 fi.size

/-- One `object` record as written by `write_manifest`. -/
def writeObject (o : object) : List Nat :=
  writeInt 2 o.file_info_indexes.length
    ++ (o.file_info_indexes.flatMap (writeInt 2))
    ++ writeBytes o.hash.hash ++ writeInt 4 o.hash.size

/-- `write_manifest`: header then the three sections.  Note the C code has
no capacity check: each count is written with `WRITE_INT(2, ·)`, which keeps
only the low 16 bits (and its `uint16_t` loop counters additionally loop
without bound when a count exceeds 65535).  This model writes every element
of each list; the count-field truncation is modelled faithfully. -/
def write_manifest (mf : manifest) : List Nat :=
  writeInt 4 MAGIC ++ writeInt 2 VERSION
    ++ writeInt 2 mf.files.length ++ mf.files.flatMap writeStr
    ++ writeInt 2 mf.file_infos.length ++ mf.file_infos.flatMap writeFileInfo
    ++ writeInt 2 mf.objects.length ++ mf.objects.flatMap writeObject

/-! ## Verifier (`verify_object`) and lookup (`manifest_get`)

The external content-hashing collaborator (`hash_file` + `hash_result_as_bytes`
+ `hash.totalN`) is modelled as an oracle `PathB → Option file_hash`; `none`
models a failed hashing (file missing or unreadable).  The `hashed_files`
hashtable (path → `struct file_hash`) is modelled as an association list.
Each model function also returns the list of paths passed to the oracle, so
that the number of collaborator invocations is observable. -/

/-- The `hashed_files` hashtable of `manifest_get`: path → current hash. -/
abbrev Cache := List (PathB × file_hash)

/-- `hashtable_search(hashed_files, path)`. -/
def lookupCache : Cache → PathB → Option file_hash
  | [], _ => none
  | (q, fh) :: rest, p => if q = p then some fh else lookupCache rest p

/-- Default `file_info` used for the (undefined-behaviour) out-of-bounds
array accesses of the C code; theorems about in-bounds manifests never
depend on it. -/
def fiDflt : file_info := ⟨0, List.replicate 16 0, 0⟩

/-- Result of `verify_object`: the boolean outcome, the hash cache after the
call (the C code mutates `hashed_files` in place), and the list of paths the
hashing collaborator was invoked on. -/
structure VerifyResult where
  ok : Bool
  cache : Cache
  calls : List PathB
deriving DecidableEq

/-- The loop body of `verify_object`, iterating over the object's
`file_info_indexes`.  For each index: look the path up in the cache; on a
miss invoke the hashing oracle (a failure is a non-match; a success is
inserted into the cache before comparison); then compare the 16 hash bytes
and the size with the recorded triple. -/
def verifyLoop (oracle : PathB → Option file_hash) (mf : manifest) :
    List Nat → Cache → VerifyResult
  | [], c => ⟨true, c, []⟩
  | i :: rest, c =>
    let fi := mf.file_infos.getD i fiDflt
    let path := mf.files.getD fi.index []
    match lookupCache c path with
    | some actual =>
      if fi.hash = actual.hash ∧ fi.size = actual.size then
        verifyLoop oracle mf rest c
      else ⟨false, c, []⟩
    | none =>
      match oracle path with
      | none => ⟨false, c, [path]⟩
      | some actual =>
        let c1 := (path, actual) :: c
        if fi.hash = actual.hash ∧ fi.size = actual.size then
          let r := verifyLoop oracle mf rest c1
          ⟨r.ok, r.cache, path :: r.calls⟩
        else ⟨false, c1, [path]⟩

/-- `verify_object(mf, obj, hashed_files)`. -/
def verify_object (oracle : PathB → Option file_hash) (mf : manifest)
    (obj : object) (c : Cache) : VerifyResult :=
  verifyLoop oracle mf obj.file_info_indexes c

/-- The pure matching predicate: every referenced triple agrees with what
the oracle currently reports for the referenced path (in particular the
oracle succeeds on it). -/
def objMatches (oracle : PathB → Option file_hash) (mf : manifest)
    (obj : object) : Bool :=
  obj.file_info_indexes.all fun i =>
    let fi := mf.file_infos.getD i fiDflt
    decide (oracle (mf.files.getD fi.index []) = some ⟨fi.hash, fi.size⟩)

/-- The object loop of `manifest_get` (already given the objects in the
order they are examined, i.e. reversed): return the hash of the first
object that verifies, threading the shared cache through the calls. -/
def findMatch (oracle : PathB → Option file_hash) (mf : manifest) :
    List object → Cache → Option file_hash × Cache × List PathB
  | [], c => (none, c, [])
  | o :: rest, c =>
    let r := verify_object oracle mf o c
    if r.ok then (some o.hash, r.cache, r.calls)
    else
      let r' := findMatch oracle mf rest r.cache
      (r'.1, r'.2.1, r.calls ++ r'.2.2)

/-- The body of `manifest_get` after the manifest file was opened and read
locked: decode, then check objects newest first with a shared hash cache.
Decode failure is a cache miss (`NULL` result). -/
def manifest_get_bytes (oracle : PathB → Option file_hash) (bytes : List Nat) :
    Option file_hash :=
  match read_manifest bytes with
  | none => none
  | some mf => (findMatch oracle mf mf.objects.reverse []).1

/-- `manifest_get(manifest_path)`: the backing file is `none` when it does
not exist (open fails, a plain cache miss). -/
def manifest_get (oracle : PathB → Option file_hash)
    (file : Option (List Nat)) : Option file_hash :=
  match file with
  | none => none
  | some bytes => manifest_get_bytes oracle bytes

/-- The paths the hashing collaborator is invoked on during one
`manifest_get` call. -/
def manifest_get_calls (oracle : PathB → Option file_hash)
    (bytes : List Nat) : List PathB :=
  match read_manifest bytes with
  | none => []
  | some mf => (findMatch oracle mf mf.objects.reverse []).2.2

/-! ## Appending (`get_include_file_index`, `get_file_hash_index`,
`add_file_info_indexes`, `add_object_entry`) -/

/-- Model of `hashtable_search` on the index maps built by
`create_string_index_map` / `create_file_info_index_map`: the index of the
(first) entry structurally equal to the key, if any.  The maps are built
from lists without duplicates, so which occurrence is found is
immaterial. -/
def tableIdx [DecidableEq α] : List α → α → Option Nat
  | [], _ => none
  | q :: t, x => if q = x then some 0 else (tableIdx t x).map (· + 1)

/-- `get_include_file_index(mf, path, mf_files)`.  The lookup table
`mf_files` is built once from the files present when
`add_file_info_indexes` starts (`origFiles`) and is never updated
afterwards in the C code, so the search is over `origFiles` even though new
paths are appended to `mf.files`. -/
def get_include_file_index (origFiles : List PathB) (mf : manifest)
    (path : PathB) : manifest × Nat :=
  match tableIdx origFiles path with
  | some i => (mf, i)
  | none => ({ mf with files := mf.files ++ [path] }, mf.files.length)

/-- `get_file_hash_index(mf, path, file_hash, mf_files, mf_file_infos)`:
resolve the path to an index, build the triple, then find or append it.
Like `mf_files`, the `mf_file_infos` table is built once from `origInfos`
and never updated. -/
def get_file_hash_index (origFiles : List PathB) (origInfos : List file_info)
    (mf : manifest) (path : PathB) (fh : file_hash) : manifest × Nat :=
  let r := get_include_file_index origFiles mf path
  let fi : file_info := ⟨r.2, fh.hash, fh.size⟩
  match tableIdx origInfos fi with
  | some i => (r.1, i)
  | none =>
    ({ r.1 with file_infos := r.1.file_infos ++ [fi] }, r.1.file_infos.length)

/-- The iteration of `add_file_info_indexes` over `included_files`.  The
hashtable iteration yields each key exactly once, so the list of
(path, hash) pairs has pairwise distinct paths whenever it models a real
`included_files` table. -/
def addFileInfoLoop (origFiles : List PathB) (origInfos : List file_info) :
    List (PathB × file_hash) → manifest → manifest × List Nat
  | [], mf => (mf, [])
  | (p, fh) :: rest, mf =>
    let r := get_file_hash_index origFiles origInfos mf p fh
    let r' := addFileInfoLoop origFiles origInfos rest r.1
    (r'.1, r.2 :: r'.2)

/-- `add_file_info_indexes(indexes, size, mf, included_files)`: nothing
happens for an empty set; otherwise the two lookup tables are built from
the manifest's current contents and each included file is resolved. -/
def add_file_info_indexes (includedFiles : List (PathB × file_hash))
    (mf : manifest) : manifest × List Nat :=
  match includedFiles with
  | [] => (mf, [])
  | _ => addFileInfoLoop mf.files mf.file_infos includedFiles mf

/-- `add_object_entry(mf, object_hash, included_files)`: resolve all
included files and append one new object entry. -/
def add_object_entry (mf : manifest) (objectHash : file_hash)
    (includedFiles : List (PathB × file_hash)) : manifest :=
  let r := add_file_info_indexes includedFiles mf
  { r.1 with objects := r.1.objects ++ [⟨r.2, objectHash⟩] }

/-! ## `manifest_put` and its failure modes

The environmental failure points of `manifest_put` (failing `safe_open` /
`write_lock_fd` / `fdopen` of the original, failing open of the temp file,
a write error while encoding, a failing `rename`) are modelled as boolean
flags; the backing file is `Option (List Nat)` (`none` = the path does not
exist).  `safe_open(manifest_path)` creates the file when absent, so after
a successful open the path always exists; all later failure paths leave the
backing content as it then is — only a fully successful encode is followed
by the `rename` that replaces it. -/

/-- Environmental outcomes of the fallible steps of `manifest_put`. -/
structure PutEnv where
  openOk : Bool
  lockOk : Bool
  tmpOpenOk : Bool
  writeOk : Bool
  renameOk : Bool
deriving DecidableEq

/-- `manifest_put(manifest_path, object_hash, included_files)`: returns the
success flag (`ret` in C) and the backing file content afterwards. -/
def manifest_put (env : PutEnv) (objectHash : file_hash)
    (includedFiles : List (PathB × file_hash)) (backing : Option (List Nat)) :
    Bool × Option (List Nat) :=
  if !env.openOk then (false, backing)
  else
    let content := backing.getD []
    let backing1 : Option (List Nat) := some content
    if !env.lockOk then (false, backing1)
    else
      match read_manifest content with
      | none => (false, backing1)
      | some mf =>
        if !env.tmpOpenOk then (false, backing1)
        else
          let mf' := add_object_entry mf objectHash includedFiles
          if !env.writeOk then (false, backing1)
          else if !env.renameOk then (false, backing1)
          else (true, some (write_manifest mf'))

/-! ## Event trace of `manifest_get` (lock discipline)

`manifest_get` acquires the shared lock right after opening the file, then
decodes, then (on decode success) runs the verification loop; the lock is
only released by the `fclose(f)` in the common `out:` epilogue — after all
hashing.  The trace mirrors that control flow for the path where open,
lock and `fdopen` succeed. -/

/-- Observable events of one `manifest_get` call. -/
inductive Ev where
  | acquireShared
  | decodeBytes
  | hashCall (p : PathB)
  | releaseLock
deriving DecidableEq

/-- Whether an event is an invocation of the hashing collaborator. -/
def Ev.isHashCall : Ev → Bool
  | .hashCall _ => true
  | _ => false

/-- The event trace of `manifest_get` on an existing backing file. -/
def manifest_get_trace (oracle : PathB → Option file_hash)
    (bytes : List Nat) : List Ev :=
  match read_manifest bytes with
  | none => [Ev.acquireShared, Ev.decodeBytes, Ev.releaseLock]
  | some mf =>
    [Ev.acquireShared, Ev.decodeBytes]
      ++ ((findMatch oracle mf mf.objects.reverse []).2.2).map Ev.hashCall
      ++ [Ev.releaseLock]

/-- The property claimed by the spec: the shared lock is released before any
file-content hashing begins, i.e. no hash call occurs before the first
`releaseLock` of the trace. -/
def releaseBeforeHashing (tr : List Ev) : Prop :=
  ∀ e ∈ tr.takeWhile (fun x => decide (x ≠ Ev.releaseLock)),
    e.isHashCall = false

instance (tr : List Ev) : Decidable (releaseBeforeHashing tr) := by
  unfold releaseBeforeHashing; infer_instance

/-! ## Validity predicates -/

/-- A path representable as the C string of a manifest entry: byte values,
no NUL, and short enough for the 1024-byte read buffer (at most 1023 bytes
plus the terminator). -/
def PathValid (p : PathB) : Prop :=
  p.length ≤ 1023 ∧ ∀ b ∈ p, 0 < b ∧ b < 256

/-- A well-formed 16-byte digest. -/
def HashValid (h : List Nat) : Prop :=
  h.length = 16 ∧ ∀ b ∈ h, b < 256

/-- Validity of an in-memory manifest per the spec's data model: 16-bit
counts and list lengths, representable paths and digests, 32-bit sizes,
no duplicates, and all indexes in bounds. -/
def manifest.Valid (m : manifest) : Prop :=
  m.files.length ≤ 65535 ∧ m.file_infos.length ≤ 65535 ∧
  m.objects.length ≤ 65535 ∧
  (∀ p ∈ m.files, PathValid p) ∧ m.files.Nodup ∧
  (∀ fi ∈ m.file_infos,
    fi.index < m.files.length ∧ HashValid fi.hash ∧ fi.size < 4294967296) ∧
  m.file_infos.Nodup ∧
  ∀ o ∈ m.objects,
    o.file_info_indexes.length ≤ 65535 ∧
    (∀ i ∈ o.file_info_indexes, i < m.file_infos.length) ∧
    HashValid o.hash.hash ∧ o.hash.size < 4294967296

instance (m : manifest) : Decidable m.Valid := by
  unfold manifest.Valid PathValid HashValid; infer_instance

/-- The bounds part of the data-model invariant on its own: every
`file_info.index` references a `files` entry, every object index references
a `file_infos` entry. -/
def manifest.IndexesInBounds (m : manifest) : Prop :=
  (∀ fi ∈ m.file_infos, fi.index < m.files.length) ∧
  ∀ o ∈ m.objects, ∀ i ∈ o.file_info_indexes, i < m.file_infos.length

instance (m : manifest) : Decidable m.IndexesInBounds := by
  unfold manifest.IndexesInBounds; infer_instance

/-- Folding a sequence of `manifest_put`-style appends over an in-memory
manifest (each operation: the new object hash plus its included files). -/
def applyAppends (ops : List (file_hash × List (PathB × file_hash)))
    (mf : manifest) : manifest :=
  ops.foldl (fun m op => add_object_entry m op.1 op.2) mf

/-- Invariant carried through the `add_file_info_indexes` iteration.
`origFiles`/`origInfos` are the snapshots the two lookup tables were built
from; `keys` are the paths of the entries not yet processed.  Files and
file_infos only grow by appending; any file added beyond the snapshot has a
path outside `keys`, and any file_info added beyond the snapshot is in
bounds and recorded for a path outside `keys`. -/
def AppendInv (origFiles : List PathB) (origInfos : List file_info)
    (keys : List PathB) (mf : manifest) : Prop :=
  origFiles <+: mf.files ∧
  origInfos <+: mf.file_infos ∧
  mf.files.Nodup ∧
  mf.file_infos.Nodup ∧
  (∀ q ∈ mf.files, q ∉ origFiles → q ∉ keys) ∧
  (∀ fi ∈ mf.file_infos, fi ∉ origInfos →
    fi.index < mf.files.length ∧ mf.files.getD fi.index [] ∉ keys)

/-- Soundness of a hash cache w.r.t. the oracle: every cached entry is what
the oracle currently returns for that path.  `manifest_get` starts from an
empty cache and only ever inserts oracle results, so this is an invariant
of the whole lookup. -/
def CacheSound (oracle : PathB → Option file_hash) (c : Cache) : Prop :=
  ∀ p fh, lookupCache c p = some fh → oracle p = some fh

/-- Index-list version of `objMatches` (the loop of `verify_object` walks
the index list). -/
def idxsMatch (oracle : PathB → Option file_hash) (mf : manifest)
    (idxs : List Nat) : Bool :=
  idxs.all fun i =>
    let fi := mf.file_infos.getD i fiDflt
    decide (oracle (mf.files.getD fi.index []) = some ⟨fi.hash, fi.size⟩)

/-! ## Concrete streams and states used as test inputs -/

/-- A manifest already holding 65535 objects — the maximum representable in
the 16-bit `n_objects` field.  One more append overflows the field. -/
def bigM : manifest :=
  ⟨[], [], List.replicate 65535 ⟨[], ⟨List.replicate 16 0, 0⟩⟩⟩

/-- A syntactically well-formed manifest stream declaring zero files but one
`file_info` whose `file_index` is 7 — out of bounds of `files`. -/
def badIndexBytes : List Nat :=
  [99, 67, 109, 70] ++ [0, 0]
    ++ [0, 0]
    ++ [0, 1] ++ [0, 7] ++ List.replicate 16 0 ++ [0, 0, 0, 0]
    ++ [0, 0]

/-- A manifest stream with one file `"a"` (byte 97), one file_info
`(0, 0…0, 0)`, and two objects both referencing that file_info: object
hashes `1…1`/5 (older) and `2…2`/6 (newer). -/
def twoObjBytes : List Nat :=
  [99, 67, 109, 70] ++ [0, 0]
    ++ [0, 1] ++ [97, 0]
    ++ [0, 1] ++ [0, 0] ++ List.replicate 16 0 ++ [0, 0, 0, 0]
    ++ [0, 2]
    ++ ([0, 1] ++ [0, 0] ++ List.replicate 16 1 ++ [0, 0, 0, 5])
    ++ ([0, 1] ++ [0, 0] ++ List.replicate 16 2 ++ [0, 0, 0, 6])

/-- Like `twoObjBytes` but with a single object. -/
def oneObjBytes : List Nat :=
  [99, 67, 109, 70] ++ [0, 0]
    ++ [0, 1] ++ [97, 0]
    ++ [0, 1] ++ [0, 0] ++ List.replicate 16 0 ++ [0, 0, 0, 0]
    ++ [0, 1]
    ++ ([0, 1] ++ [0, 0] ++ List.replicate 16 1 ++ [0, 0, 0, 5])

/-- An oracle under which the recorded triple `(0…0, 0)` of the streams
above matches: every file currently hashes to `0…0` with size 0. -/
def oracleZero : PathB → Option file_hash :=
  fun _ => some ⟨List.replicate 16 0, 0⟩

/-- An oracle under which hashing always fails (file missing/unreadable). -/
def oracleFail : PathB → Option file_hash :=
  fun _ => none

/-- A manifest stream with no files, no file_infos, and one object whose
include-file index set is empty (hash `3…3`, size 8). -/
def emptyObjBytes : List Nat :=
  [99, 67, 109, 70] ++ [0, 0]
    ++ [0, 0]
    ++ [0, 0]
    ++ [0, 1] ++ ([0, 0] ++ List.replicate 16 3 ++ [0, 0, 0, 8])

/-- Two append operations whose include sets overlap on path `[97]`. -/
def opsW : List (file_hash × List (PathB × file_hash)) :=
  [(⟨List.replicate 16 1, 5⟩, [([97], ⟨List.replicate 16 0, 3⟩)]),
   (⟨List.replicate 16 2, 6⟩,
     [([97], ⟨List.replicate 16 0, 3⟩), ([98], ⟨List.replicate 16 9, 4⟩)])]

/-! ## Lemmas about the verifier -/

lemma objMatches_eq_idxsMatch (oracle : PathB → Option file_hash)
    (mf : manifest) (obj : object) :
    objMatches oracle mf obj = idxsMatch oracle mf obj.file_info_indexes := rfl

lemma cacheSound_empty (oracle : PathB → Option file_hash) :
    CacheSound oracle [] := by
  intro p fh h
  simp [lookupCache] at h

lemma cacheSound_insert (oracle : PathB → Option file_hash) (c : Cache)
    (path : PathB) (fh : file_hash) (hc : CacheSound oracle c)
    (hor : oracle path = some fh) :
    CacheSound oracle ((path, fh) :: c) := by
  intro p fh' h
  simp only [lookupCache] at h
  by_cases hp : path = p
  · rw [if_pos hp] at h
    cases h
    exact hp ▸ hor
  · rw [if_neg hp] at h
    exact hc p fh' h

lemma decide_oracle_point (o : Option file_hash) (h : List Nat) (s : Nat) :
    decide (o = some (⟨h, s⟩ : file_hash)) =
      match o with
      | none => false
      | some actual => decide (h = actual.hash ∧ s = actual.size) := by
  cases o with
  | none => simp
  | some a =>
    cases a with
    | mk ah as =>
      dsimp only
      by_cases hh : h = ah ∧ s = as
      · rcases hh with ⟨h1, h2⟩
        subst h1
        subst h2
        simp
      · have hne : ¬ (some (⟨ah, as⟩ : file_hash) = some (⟨h, s⟩ : file_hash)) := by
          intro he
          injection he with he'
          injection he' with e1 e2
          exact hh ⟨e1.symm, e2.symm⟩
        simp only [decide_eq_false hne, decide_eq_false hh]

lemma verifyLoop_ok_sound (oracle : PathB → Option file_hash) (mf : manifest) :
    ∀ (idxs : List Nat) (c : Cache), CacheSound oracle c →
      (verifyLoop oracle mf idxs c).ok = idxsMatch oracle mf idxs ∧
      CacheSound oracle (verifyLoop oracle mf idxs c).cache := by
  intro idxs
  induction idxs with
  | nil => exact fun c hc => ⟨rfl, hc⟩
  | cons i rest ih =>
    intro c hc
    simp only [verifyLoop, idxsMatch, List.all_cons, decide_oracle_point]
    cases hcl : lookupCache c (mf.files.getD (mf.file_infos.getD i fiDflt).index []) with
    | some actual =>
      dsimp only
      have hor := hc _ _ hcl
      rw [hor]
      dsimp only
      by_cases hm : (mf.file_infos.getD i fiDflt).hash = actual.hash ∧
          (mf.file_infos.getD i fiDflt).size = actual.size
      · rw [if_pos hm, decide_eq_true hm, Bool.true_and]
        have ihh := ih c hc
        simp only [idxsMatch, decide_oracle_point] at ihh
        exact ihh
      · rw [if_neg hm, decide_eq_false hm, Bool.false_and]
        exact ⟨rfl, hc⟩
    | none =>
      dsimp only
      cases horc : oracle (mf.files.getD (mf.file_infos.getD i fiDflt).index []) with
      | none =>
        dsimp only
        rw [Bool.false_and]
        exact ⟨rfl, hc⟩
      | some actual =>
        dsimp only
        have hc1 := cacheSound_insert oracle c _ actual hc horc
        by_cases hm : (mf.file_infos.getD i fiDflt).hash = actual.hash ∧
            (mf.file_infos.getD i fiDflt).size = actual.size
        · rw [if_pos hm, decide_eq_true hm, Bool.true_and]
          have ihh := ih _ hc1
          simp only [idxsMatch, decide_oracle_point] at ihh
          exact ⟨ihh.1, ihh.2⟩
        · rw [if_neg hm, decide_eq_false hm, Bool.false_and]
          exact ⟨rfl, hc1⟩

lemma verify_object_ok_sound (oracle : PathB → Option file_hash)
    (mf : manifest) (obj : object) (c : Cache) (hc : CacheSound oracle c) :
    (verify_object oracle mf obj c).ok = objMatches oracle mf obj ∧
    CacheSound oracle (verify_object oracle mf obj c).cache :=
  verifyLoop_ok_sound oracle mf obj.file_info_indexes c hc

lemma lookupCache_cons (q : PathB) (fh : file_hash) (c : Cache) (p : PathB) :
    lookupCache ((q, fh) :: c) p = if q = p then some fh else lookupCache c p :=
  rfl

lemma filter_singleton_nodup (f : PathB → Bool) (a : PathB) :
    (List.filter f [a]).Nodup := by
  rw [List.filter_cons]
  by_cases h : f a = true
  · rw [if_pos h]
    exact List.nodup_singleton a
  · rw [if_neg h]
    exact List.nodup_nil

/-- Cache/call bookkeeping of the `verify_object` loop: the cache only
grows; every oracle invocation happens on a path that was not in the cache
at the start of the loop; a successfully hashed path ends up in the final
cache; and the successfully hashed invocations are pairwise distinct. -/
lemma verifyLoop_calls (oracle : PathB → Option file_hash) (mf : manifest) :
    ∀ (idxs : List Nat) (c : Cache),
      (∀ p fh, lookupCache c p = some fh →
        lookupCache (verifyLoop oracle mf idxs c).cache p = some fh) ∧
      (∀ p ∈ (verifyLoop oracle mf idxs c).calls, lookupCache c p = none) ∧
      (∀ p ∈ (verifyLoop oracle mf idxs c).calls, ∀ fh, oracle p = some fh →
        lookupCache (verifyLoop oracle mf idxs c).cache p = some fh) ∧
      ((verifyLoop oracle mf idxs c).calls.filter
        (fun p => (oracle p).isSome)).Nodup := by
  intro idxs
  induction idxs with
  | nil =>
    intro c
    refine ⟨fun p fh h => h, ?_, ?_, ?_⟩ <;> simp [verifyLoop]
  | cons i rest ih =>
    intro c
    simp only [verifyLoop]
    cases hcl : lookupCache c (mf.files.getD (mf.file_infos.getD i fiDflt).index []) with
    | some actual =>
      dsimp only
      by_cases hm : (mf.file_infos.getD i fiDflt).hash = actual.hash ∧
          (mf.file_infos.getD i fiDflt).size = actual.size
      · rw [if_pos hm]
        exact ih c
      · rw [if_neg hm]
        refine ⟨fun p fh h => h, ?_, ?_, ?_⟩ <;> simp
    | none =>
      dsimp only
      cases horc : oracle (mf.files.getD (mf.file_infos.getD i fiDflt).index []) with
      | none =>
        dsimp only
        refine ⟨fun p fh h => h, ?_, ?_, ?_⟩
        · intro p hp
          simp only [List.mem_singleton] at hp
          exact hp ▸ hcl
        · intro p hp fh hfh
          simp only [List.mem_singleton] at hp
          rw [hp] at hfh
          rw [hfh] at horc
          cases horc
        · exact filter_singleton_nodup _ _
      | some actual =>
        dsimp only
        by_cases hm : (mf.file_infos.getD i fiDflt).hash = actual.hash ∧
            (mf.file_infos.getD i fiDflt).size = actual.size
        · rw [if_pos hm]
          obtain ⟨ihmono, ihmiss, ihcached, ihnodup⟩ :=
            ih ((mf.files.getD (mf.file_infos.getD i fiDflt).index [], actual) :: c)
          dsimp only
          refine ⟨?_, ?_, ?_, ?_⟩
          · intro p fh h
            apply ihmono
            rw [lookupCache_cons]
            by_cases hpq : mf.files.getD (mf.file_infos.getD i fiDflt).index [] = p
            · rw [hpq] at hcl
              rw [hcl] at h
              cases h
            · rw [if_neg hpq]
              exact h
          · intro p hp
            rcases List.mem_cons.mp hp with hp | hp
            · exact hp ▸ hcl
            · have := ihmiss p hp
              rw [lookupCache_cons] at this
              by_cases hpq : mf.files.getD (mf.file_infos.getD i fiDflt).index [] = p
              · rw [if_pos hpq] at this
                cases this
              · rw [if_neg hpq] at this
                exact this
          · intro p hp fh hfh
            rcases List.mem_cons.mp hp with hp | hp
            · subst hp
              rw [hfh] at horc
              injection horc with he
              apply ihmono
              rw [lookupCache_cons, if_pos rfl, he]
            · exact ihcached p hp fh hfh
          · rw [List.filter_cons]
            rw [if_pos (by rw [horc]; rfl)]
            refine List.Nodup.cons ?_ ihnodup
            intro hmem
            have hmem' := List.mem_of_mem_filter hmem
            have := ihmiss _ hmem'
            rw [lookupCache_cons, if_pos rfl] at this
            cases this
        · rw [if_neg hm]
          refine ⟨?_, ?_, ?_, ?_⟩
          · intro p fh h
            dsimp only
            rw [lookupCache_cons]
            by_cases hpq : mf.files.getD (mf.file_infos.getD i fiDflt).index [] = p
            · rw [hpq] at hcl
              rw [hcl] at h
              cases h
            · rw [if_neg hpq]
              exact h
          · intro p hp
            simp only [List.mem_singleton] at hp
            exact hp ▸ hcl
          · intro p hp fh hfh
            simp only [List.mem_singleton] at hp
            subst hp
            rw [hfh] at horc
            injection horc with he
            dsimp only
            rw [lookupCache_cons, if_pos rfl, he]
          · exact filter_singleton_nodup _ _

/-- The same bookkeeping lifted through the object loop of `manifest_get`. -/
lemma findMatch_calls (oracle : PathB → Option file_hash) (mf : manifest) :
    ∀ (objs : List object) (c : Cache),
      (∀ p fh, lookupCache c p = some fh →
        lookupCache (findMatch oracle mf objs c).2.1 p = some fh) ∧
      (∀ p ∈ (findMatch oracle mf objs c).2.2, lookupCache c p = none) ∧
      (∀ p ∈ (findMatch oracle mf objs c).2.2, ∀ fh, oracle p = some fh →
        lookupCache (findMatch oracle mf objs c).2.1 p = some fh) ∧
      ((findMatch oracle mf objs c).2.2.filter
        (fun p => (oracle p).isSome)).Nodup := by
  intro objs
  induction objs with
  | nil =>
    intro c
    refine ⟨fun p fh h => h, ?_, ?_, ?_⟩ <;> simp [findMatch]
  | cons o rest ih =>
    intro c
    simp only [findMatch, verify_object]
    obtain ⟨vmono, vmiss, vcached, vnodup⟩ :=
      verifyLoop_calls oracle mf o.file_info_indexes c
    cases hok : (verifyLoop oracle mf o.file_info_indexes c).ok with
    | true =>
      rw [if_pos rfl]
      exact ⟨vmono, vmiss, vcached, vnodup⟩
    | false =>
      rw [if_neg (by simp)]
      obtain ⟨imono, imiss, icached, inodup⟩ :=
        ih (verifyLoop oracle mf o.file_info_indexes c).cache
      dsimp only
      refine ⟨?_, ?_, ?_, ?_⟩
      · intro p fh h
        exact imono p fh (vmono p fh h)
      · intro p hp
        rcases List.mem_append.mp hp with hp | hp
        · exact vmiss p hp
        · have h2 := imiss p hp
          cases h3 : lookupCache c p with
          | none => rfl
          | some fh =>
            have := vmono p fh h3
            rw [this] at h2
            cases h2
      · intro p hp fh hfh
        rcases List.mem_append.mp hp with hp | hp
        · exact imono p fh (vcached p hp fh hfh)
        · exact icached p hp fh hfh
      · rw [List.filter_append]
        refine List.Nodup.append vnodup inodup ?_
        intro p hp1 hp2
        have hp1' := List.mem_of_mem_filter hp1
        have hsome : (oracle p).isSome := by
          have := List.of_mem_filter hp1
          simpa using this
        obtain ⟨fh, hfh⟩ := Option.isSome_iff_exists.mp hsome
        have hcached := vcached p hp1' fh hfh
        have hmiss := imiss p (List.mem_of_mem_filter hp2)
        rw [hcached] at hmiss
        cases hmiss

/-! ## Deduplication lemmas (the append path) -/

lemma getD_append_left (l l' : List α) (i : Nat) (d : α) (h : i < l.length) :
    (l ++ l').getD i d = l.getD i d := by
  simp only [List.getD_eq_getElem?_getD]
  rw [List.getElem?_append, if_pos h]

lemma getD_append_last (l : List α) (x d : α) :
    (l ++ [x]).getD l.length d = x := by
  simp only [List.getD_eq_getElem?_getD]
  rw [List.getElem?_concat_length]
  rfl

lemma tableIdx_none_iff [DecidableEq α] :
    ∀ (l : List α) (x : α), tableIdx l x = none ↔ x ∉ l := by
  intro l
  induction l with
  | nil => intro x; simp [tableIdx]
  | cons q t ih =>
    intro x
    simp only [tableIdx]
    by_cases h : q = x
    · rw [if_pos h]
      simp [h]
    · rw [if_neg h]
      constructor
      · intro hm hx
        rcases List.mem_cons.mp hx with rfl | hx
        · exact h rfl
        · rw [Option.map_eq_none'] at hm
          exact (ih x).mp hm hx
      · intro hx
        rw [Option.map_eq_none', ih x]
        intro hx'
        exact hx (List.mem_cons_of_mem q hx')

lemma tableIdx_some_getD [DecidableEq α] :
    ∀ (l : List α) (x : α) (i : Nat) (d : α),
      tableIdx l x = some i → i < l.length ∧ l.getD i d = x := by
  intro l
  induction l with
  | nil => intro x i d h; cases h
  | cons q t ih =>
    intro x i d h
    simp only [tableIdx] at h
    by_cases hq : q = x
    · rw [if_pos hq] at h
      injection h with h'
      subst h'
      exact ⟨Nat.succ_pos _, hq⟩
    · rw [if_neg hq] at h
      cases ht : tableIdx t x with
      | none =>
        rw [ht] at h
        cases h
      | some j =>
        rw [ht] at h
        simp only [Option.map_some'] at h
        injection h with h'
        subst h'
        obtain ⟨hlt, hget⟩ := ih x j d ht
        exact ⟨Nat.succ_lt_succ hlt, by simpa using hget⟩

lemma prefix_getD (l l' : List α) (i : Nat) (d : α) (hpre : l <+: l')
    (h : i < l.length) : l'.getD i d = l.getD i d := by
  obtain ⟨t, rfl⟩ := hpre
  exact getD_append_left l t i d h

lemma gifi_facts (origFiles : List PathB) (mf : manifest) (p : PathB)
    (hpre : origFiles <+: mf.files) :
    (get_include_file_index origFiles mf p).1.file_infos = mf.file_infos ∧
    (get_include_file_index origFiles mf p).1.objects = mf.objects ∧
    (get_include_file_index origFiles mf p).2
        < (get_include_file_index origFiles mf p).1.files.length ∧
    (get_include_file_index origFiles mf p).1.files.getD
        (get_include_file_index origFiles mf p).2 [] = p ∧
    ((get_include_file_index origFiles mf p).1.files = mf.files ∨
      (p ∉ origFiles ∧
        (get_include_file_index origFiles mf p).1.files = mf.files ++ [p])) := by
  unfold get_include_file_index
  cases h : tableIdx origFiles p with
  | some i =>
    dsimp only
    obtain ⟨hlt, hget⟩ := tableIdx_some_getD origFiles p i ([] : PathB) h
    refine ⟨rfl, rfl, Nat.lt_of_lt_of_le hlt hpre.length_le, ?_, Or.inl rfl⟩
    rw [prefix_getD origFiles mf.files i [] hpre hlt]
    exact hget
  | none =>
    dsimp only
    refine ⟨rfl, rfl, by simp, getD_append_last mf.files p [], Or.inr ⟨?_, rfl⟩⟩
    exact (tableIdx_none_iff origFiles p).mp h

lemma gfhi_preserves (origFiles : List PathB) (origInfos : List file_info)
    (mf : manifest) (p : PathB) (fh : file_hash) (keys : List PathB)
    (hinv : AppendInv origFiles origInfos (p :: keys) mf)
    (hpk : p ∉ keys) :
    AppendInv origFiles origInfos keys
      (get_file_hash_index origFiles origInfos mf p fh).1 := by
  obtain ⟨hpre, hpreI, hndF, hndI, hinvF, hinvI⟩ := hinv
  obtain ⟨hfi_eq, _, hlt, hget, hcases⟩ := gifi_facts origFiles mf p hpre
  -- facts about the intermediate manifest r.1
  have hmid : mf.files <+: (get_include_file_index origFiles mf p).1.files := by
    rcases hcases with hc | ⟨_, hc⟩
    · rw [hc]
    · rw [hc]
      exact List.prefix_append mf.files [p]
  have hmem : ∀ q ∈ (get_include_file_index origFiles mf p).1.files,
      q ∈ mf.files ∨ q = p := by
    intro q hq
    rcases hcases with hc | ⟨_, hc⟩
    · rw [hc] at hq
      exact Or.inl hq
    · rw [hc] at hq
      rcases List.mem_append.mp hq with hq | hq
      · exact Or.inl hq
      · exact Or.inr (List.mem_singleton.mp hq)
  have hndF1 : (get_include_file_index origFiles mf p).1.files.Nodup := by
    rcases hcases with hc | ⟨hnp, hc⟩
    · rw [hc]
      exact hndF
    · rw [hc]
      refine List.Nodup.append hndF (List.nodup_singleton p) ?_
      intro q hq hq'
      rw [List.mem_singleton] at hq'
      subst hq'
      by_cases ho : q ∈ origFiles
      · exact hnp ho
      · exact hinvF q hq ho (List.mem_cons_self q keys)
  have hpre1 : origFiles <+: (get_include_file_index origFiles mf p).1.files :=
    hpre.trans hmid
  have hinvF1 : ∀ q ∈ (get_include_file_index origFiles mf p).1.files,
      q ∉ origFiles → q ∉ keys := by
    intro q hq hno
    rcases hmem q hq with hq' | rfl
    · intro hk
      exact hinvF q hq' hno (List.mem_cons_of_mem p hk)
    · exact hpk
  have hinvI1 : ∀ fi ∈ mf.file_infos, fi ∉ origInfos →
      fi.index < (get_include_file_index origFiles mf p).1.files.length ∧
      (get_include_file_index origFiles mf p).1.files.getD fi.index []
        ∉ p :: keys := by
    intro fi hfi hno
    obtain ⟨hl, hnk⟩ := hinvI fi hfi hno
    refine ⟨Nat.lt_of_lt_of_le hl hmid.length_le, ?_⟩
    rw [prefix_getD mf.files _ fi.index [] hmid hl]
    exact hnk
  -- now the second table lookup
  unfold get_file_hash_index
  dsimp only
  cases h2 : tableIdx origInfos
      (⟨(get_include_file_index origFiles mf p).2, fh.hash, fh.size⟩ : file_info) with
  | some j =>
    dsimp only
    refine ⟨hpre1, by rw [hfi_eq]; exact hpreI, hndF1, by rw [hfi_eq]; exact hndI,
      hinvF1, ?_⟩
    rw [hfi_eq]
    intro fi hfi hno
    exact ⟨(hinvI1 fi hfi hno).1,
      fun hk => (hinvI1 fi hfi hno).2 (List.mem_cons_of_mem p hk)⟩
  | none =>
    dsimp only
    have hnotin : (⟨(get_include_file_index origFiles mf p).2, fh.hash, fh.size⟩ :
        file_info) ∉ mf.file_infos := by
      intro hmemI
      by_cases ho : (⟨(get_include_file_index origFiles mf p).2, fh.hash, fh.size⟩ :
          file_info) ∈ origInfos
      · rw [tableIdx_none_iff] at h2
        exact h2 ho
      · have := (hinvI1 _ hmemI ho).2
        rw [hget] at this
        exact this (List.mem_cons_self p keys)
    refine ⟨hpre1, ?_, hndF1, ?_, hinvF1, ?_⟩
    · rw [hfi_eq]
      exact hpreI.trans (List.prefix_append _ _)
    · rw [hfi_eq]
      refine List.Nodup.append hndI (List.nodup_singleton _) ?_
      intro fi hfi hfi'
      rw [List.mem_singleton] at hfi'
      subst hfi'
      exact hnotin hfi
    · rw [hfi_eq]
      intro fi hfi hno
      rcases List.mem_append.mp hfi with hfi | hfi
      · exact ⟨(hinvI1 fi hfi hno).1,
          fun hk => (hinvI1 fi hfi hno).2 (List.mem_cons_of_mem p hk)⟩
      · rw [List.mem_singleton] at hfi
        subst hfi
        exact ⟨hlt, by rw [hget]; exact hpk⟩

lemma addLoop_nodup (origFiles : List PathB) (origInfos : List file_info) :
    ∀ (l : List (PathB × file_hash)) (mf : manifest),
      (l.map Prod.fst).Nodup →
      AppendInv origFiles origInfos (l.map Prod.fst) mf →
      (addFileInfoLoop origFiles origInfos l mf).1.files.Nodup ∧
      (addFileInfoLoop origFiles origInfos l mf).1.file_infos.Nodup := by
  intro l
  induction l with
  | nil =>
    intro mf _ hinv
    exact ⟨hinv.2.2.1, hinv.2.2.2.1⟩
  | cons e rest ih =>
    intro mf hk hinv
    obtain ⟨p, fh⟩ := e
    simp only [List.map_cons, List.nodup_cons] at hk
    have hstep := gfhi_preserves origFiles origInfos mf p fh
      (rest.map Prod.fst) (by simpa using hinv) hk.1
    have := ih (get_file_hash_index origFiles origInfos mf p fh).1 hk.2 hstep
    simpa [addFileInfoLoop] using this

lemma add_object_entry_nodup (mf : manifest) (oh : file_hash)
    (inc : List (PathB × file_hash))
    (hf : mf.files.Nodup) (hi : mf.file_infos.Nodup)
    (hk : (inc.map Prod.fst).Nodup) :
    (add_object_entry mf oh inc).files.Nodup ∧
    (add_object_entry mf oh inc).file_infos.Nodup := by
  cases inc with
  | nil => exact ⟨hf, hi⟩
  | cons e t =>
    have hinv0 : AppendInv mf.files mf.file_infos ((e :: t).map Prod.fst) mf :=
      ⟨List.prefix_refl _, List.prefix_refl _, hf, hi,
        fun q hq hnq => absurd hq hnq, fun fi hfi hnfi => absurd hfi hnfi⟩
    exact addLoop_nodup mf.files mf.file_infos (e :: t) mf hk hinv0

lemma applyAppends_nodup (ops : List (file_hash × List (PathB × file_hash))) :
    ∀ (mf : manifest),
      (∀ op ∈ ops, (op.2.map Prod.fst).Nodup) →
      mf.files.Nodup → mf.file_infos.Nodup →
      (applyAppends ops mf).files.Nodup ∧
      (applyAppends ops mf).file_infos.Nodup := by
  induction ops with
  | nil => intro mf _ hf hi; exact ⟨hf, hi⟩
  | cons op rest ih =>
    intro mf hops hf hi
    have h1 := add_object_entry_nodup mf op.1 op.2 hf hi
      (hops op (List.mem_cons_self _ _))
    have h2 := ih (add_object_entry mf op.1 op.2)
      (fun o ho => hops o (List.mem_cons_of_mem _ ho)) h1.1 h1.2
    simpa [applyAppends] using h2

/-! ## Codec round-trip lemmas -/

lemma mod_mul_decompose (v m k : Nat) :
    v % (m * k) = v % m + m * (v / m % k) := by
  conv_rhs =>
    rw [← Nat.mod_mul_right_div_self v m k,
      ← Nat.mod_mod_of_dvd v (dvd_mul_right m k)]
  exact (Nat.mod_add_div (v % (m * k)) m).symm

lemma readIntAux_append : ∀ (n acc v : Nat) (rest : List Nat),
    readIntAux n acc (writeInt n v ++ rest) =
      some (acc * 256 ^ n + v % 256 ^ n, rest) := by
  intro n
  induction n with
  | zero =>
    intro acc v rest
    simp [writeInt, readIntAux, Nat.mod_one]
  | succ n ih =>
    intro acc v rest
    have hb : v >>> (8 * n) % 256 % 256 = v >>> (8 * n) % 256 :=
      Nat.mod_mod_of_dvd _ dvd_rfl
    have hshift : v >>> (8 * n) = v / 256 ^ n := by
      rw [Nat.shiftRight_eq_div_pow, pow_mul]
      norm_num
    have step : readIntAux (n + 1) acc (writeInt (n + 1) v ++ rest)
        = readIntAux n (acc * 256 + v >>> (8 * n) % 256 % 256)
            (writeInt n v ++ rest) := rfl
    rw [step, hb, ih, hshift]
    have harith : (acc * 256 + v / 256 ^ n % 256) * 256 ^ n + v % 256 ^ n
        = acc * 256 ^ (n + 1) + v % 256 ^ (n + 1) := by
      rw [pow_succ, mod_mul_decompose v (256 ^ n) 256]
      ring
    rw [harith]

lemma readInt_writeInt (n v : Nat) (rest : List Nat) (h : v < 256 ^ n) :
    readInt n (writeInt n v ++ rest) = some (v, rest) := by
  rw [readInt, readIntAux_append, Nat.mod_eq_of_lt h]
  simp

lemma readStrAux_append : ∀ (p : PathB) (fuel : Nat) (rest : List Nat),
    p.length < fuel → (∀ b ∈ p, 0 < b ∧ b < 256) →
    readStrAux fuel (p ++ 0 :: rest) = some (p, rest) := by
  intro p
  induction p with
  | nil =>
    intro fuel rest hf _
    cases fuel with
    | zero => cases hf
    | succ f => simp [readStrAux]
  | cons b p ih =>
    intro fuel rest hf hb
    cases fuel with
    | zero => cases hf
    | succ f =>
      have hb0 := hb b (List.mem_cons_self b p)
      have hbmod : b % 256 = b := Nat.mod_eq_of_lt hb0.2
      have step : readStrAux (f + 1) ((b :: p) ++ 0 :: rest)
          = if b % 256 = 0 then some ([], p ++ 0 :: rest)
            else (readStrAux f (p ++ 0 :: rest)).map
              fun r => (b % 256 :: r.1, r.2) := rfl
      rw [step, hbmod, if_neg (by omega)]
      rw [ih f rest (by simp only [List.length_cons] at hf; omega)
        (fun x hx => hb x (List.mem_cons_of_mem b hx))]
      simp

lemma readStr_writeStr (p : PathB) (rest : List Nat) (h : PathValid p) :
    readStr (writeStr p ++ rest) = some (p, rest) := by
  rw [readStr, writeStr, List.append_assoc, List.singleton_append]
  exact readStrAux_append p 1024 rest (by have := h.1; omega) h.2

lemma readBytes_append : ∀ (h rest : List Nat), (∀ b ∈ h, b < 256) →
    readBytes h.length (h ++ rest) = some (h, rest) := by
  intro h
  induction h with
  | nil => intro rest _; simp [readBytes]
  | cons b t ih =>
    intro rest hb
    have hbmod : b % 256 = b := Nat.mod_eq_of_lt (hb b (List.mem_cons_self b t))
    have step : readBytes (b :: t).length ((b :: t) ++ rest)
        = (readBytes t.length (t ++ rest)).map
            fun r => (b % 256 :: r.1, r.2) := rfl
    rw [step, hbmod, ih rest (fun x hx => hb x (List.mem_cons_of_mem b hx))]
    simp

lemma writeBytes_eq (h : List Nat) (hv : ∀ b ∈ h, b < 256) :
    writeBytes h = h := by
  induction h with
  | nil => rfl
  | cons b t ih =>
    simp only [writeBytes, List.map_cons] at *
    rw [Nat.mod_eq_of_lt (hv b (List.mem_cons_self b t)),
      ih (fun x hx => hv x (List.mem_cons_of_mem b hx))]

lemma readBytes_writeBytes (h rest : List Nat) (hv : HashValid h) :
    readBytes 16 (writeBytes h ++ rest) = some (h, rest) := by
  rw [writeBytes_eq h hv.2, ← hv.1]
  exact readBytes_append h rest hv.2

lemma readListN_succ (r : List Nat → Option (α × List Nat)) (n : Nat)
    (s : List Nat) :
    readListN r (n + 1) s
      = match r s with
        | none => none
        | some (a, s') =>
          match readListN r n s' with
          | none => none
          | some (as_, s'') => some (a :: as_, s'') := rfl

lemma readListN_append (r : List Nat → Option (α × List Nat)) (w : α → List Nat) :
    ∀ (l : List α) (rest : List Nat),
      (∀ a ∈ l, ∀ rest', r (w a ++ rest') = some (a, rest')) →
      readListN r l.length (l.flatMap w ++ rest) = some (l, rest) := by
  intro l
  induction l with
  | nil => intro rest _; simp [readListN]
  | cons a t ih =>
    intro rest hr
    rw [List.flatMap_cons, List.append_assoc, List.length_cons, readListN_succ]
    rw [hr a (List.mem_cons_self a t)]
    dsimp only
    rw [ih rest (fun x hx rest' => hr x (List.mem_cons_of_mem a hx) rest')]

lemma lt_pow2_16 {v : Nat} (h : v < 65536) : v < 256 ^ 2 :=
  Nat.lt_of_lt_of_le h (by norm_num)

lemma lt_pow4_32 {v : Nat} (h : v < 4294967296) : v < 256 ^ 4 :=
  Nat.lt_of_lt_of_le h (by norm_num)

lemma readFileInfo_writeFileInfo (fi : file_info) (rest : List Nat)
    (hidx : fi.index < 65536) (hh : HashValid fi.hash)
    (hs : fi.size < 4294967296) :
    readFileInfo (writeFileInfo fi ++ rest) = some (fi, rest) := by
  simp only [writeFileInfo, List.append_assoc, readFileInfo]
  rw [readInt_writeInt 2 fi.index _ (lt_pow2_16 hidx)]
  dsimp only
  rw [readBytes_writeBytes fi.hash _ hh]
  dsimp only
  rw [readInt_writeInt 4 fi.size _ (lt_pow4_32 hs)]

lemma readObject_writeObject (o : object) (rest : List Nat)
    (hlen : o.file_info_indexes.length < 65536)
    (hidx : ∀ i ∈ o.file_info_indexes, i < 65536)
    (hh : HashValid o.hash.hash) (hs : o.hash.size < 4294967296) :
    readObject (writeObject o ++ rest) = some (o, rest) := by
  simp only [writeObject, List.append_assoc, readObject]
  rw [readInt_writeInt 2 o.file_info_indexes.length _ (lt_pow2_16 hlen)]
  dsimp only
  rw [readListN_append (readInt 2) (writeInt 2) o.file_info_indexes _
    (fun i hi rest' => readInt_writeInt 2 i rest' (lt_pow2_16 (hidx i hi)))]
  dsimp only
  rw [readBytes_writeBytes o.hash.hash _ hh]
  dsimp only
  rw [readInt_writeInt 4 o.hash.size _ (lt_pow4_32 hs)]

/-- Decoding a stream produced by encoding a valid manifest reproduces that
manifest exactly. -/
lemma read_write_manifest (m : manifest) (hv : m.Valid) :
    read_manifest (write_manifest m) = some m := by
  obtain ⟨h1, h2, h3, h4, _, h6, _, h8⟩ := hv
  have hne : ¬ (write_manifest m = []) := by
    simp [write_manifest, writeInt]
  rw [read_manifest, if_neg hne]
  simp only [write_manifest, List.append_assoc]
  rw [readInt_writeInt 4 MAGIC _ (by decide)]
  dsimp only
  rw [if_neg (by simp)]
  rw [readInt_writeInt 2 VERSION _ (by decide)]
  dsimp only
  rw [if_neg (by simp [VERSION])]
  rw [readInt_writeInt 2 m.files.length _ (lt_pow2_16 (by omega))]
  dsimp only
  rw [readListN_append readStr writeStr m.files _
    (fun p hp rest' => readStr_writeStr p rest' (h4 p hp))]
  dsimp only
  rw [readInt_writeInt 2 m.file_infos.length _ (lt_pow2_16 (by omega))]
  dsimp only
  rw [readListN_append readFileInfo writeFileInfo m.file_infos _
    (fun fi hfi rest' => readFileInfo_writeFileInfo fi rest'
      (by have := (h6 fi hfi).1; omega) (h6 fi hfi).2.1 (h6 fi hfi).2.2)]
  dsimp only
  rw [readInt_writeInt 2 m.objects.length _ (lt_pow2_16 (by omega))]
  dsimp only
  rw [show m.objects.flatMap writeObject = m.objects.flatMap writeObject ++ []
    from (List.append_nil _).symm]
  rw [readListN_append readObject writeObject m.objects _
    (fun o ho rest' => readObject_writeObject o rest'
      (by have := (h8 o ho).1; omega)
      (fun i hi => by have := (h8 o ho).2.1 i hi; omega)
      (h8 o ho).2.2.1 (h8 o ho).2.2.2)]

/-! ## Width bounds guaranteed by the decoder -/

lemma readIntAux_lt : ∀ (n acc : Nat) (s : List Nat) (v : Nat) (s' : List Nat),
    readIntAux n acc s = some (v, s') → v < (acc + 1) * 256 ^ n := by
  intro n
  induction n with
  | zero =>
    intro acc s v s' h
    cases h
    simp
  | succ n ih =>
    intro acc s v s' h
    cases s with
    | nil => cases h
    | cons b t =>
      have h' := ih (acc * 256 + b % 256) t v s' h
      have hb : b % 256 < 256 := Nat.mod_lt b (by omega)
      have : (acc * 256 + b % 256 + 1) * 256 ^ n ≤ (acc + 1) * 256 ^ (n + 1) := by
        rw [pow_succ]
        have : acc * 256 + b % 256 + 1 ≤ (acc + 1) * 256 := by omega
        calc (acc * 256 + b % 256 + 1) * 256 ^ n
            ≤ (acc + 1) * 256 * 256 ^ n := Nat.mul_le_mul_right _ this
          _ = (acc + 1) * (256 ^ n * 256) := by ring
      omega

lemma readInt_lt (n : Nat) (s : List Nat) (v : Nat) (s' : List Nat)
    (h : readInt n s = some (v, s')) : v < 256 ^ n := by
  have := readIntAux_lt n 0 s v s' h
  simpa using this

lemma readListN_length (r : List Nat → Option (α × List Nat)) :
    ∀ (n : Nat) (s : List Nat) (l : List α) (s' : List Nat),
      readListN r n s = some (l, s') → l.length = n := by
  intro n
  induction n with
  | zero =>
    intro s l s' h
    cases h
    rfl
  | succ n ih =>
    intro s l s' h
    rw [readListN_succ] at h
    cases h1 : r s with
    | none =>
      rw [h1] at h
      cases h
    | some pr =>
      obtain ⟨a, s1⟩ := pr
      rw [h1] at h
      dsimp only at h
      cases h2 : readListN r n s1 with
      | none =>
        rw [h2] at h
        cases h
      | some pr2 =>
        obtain ⟨as_, s2⟩ := pr2
        rw [h2] at h
        dsimp only at h
        injection h with h'
        injection h' with h3 h4
        subst h3
        simp [ih s1 as_ s2 h2]

lemma readListN_mem (r : List Nat → Option (α × List Nat)) (P : α → Prop)
    (hP : ∀ s a s', r s = some (a, s') → P a) :
    ∀ (n : Nat) (s : List Nat) (l : List α) (s' : List Nat),
      readListN r n s = some (l, s') → ∀ a ∈ l, P a := by
  intro n
  induction n with
  | zero =>
    intro s l s' h
    cases h
    simp
  | succ n ih =>
    intro s l s' h
    rw [readListN_succ] at h
    cases h1 : r s with
    | none =>
      rw [h1] at h
      cases h
    | some pr =>
      obtain ⟨a, s1⟩ := pr
      rw [h1] at h
      dsimp only at h
      cases h2 : readListN r n s1 with
      | none =>
        rw [h2] at h
        cases h
      | some pr2 =>
        obtain ⟨as_, s2⟩ := pr2
        rw [h2] at h
        dsimp only at h
        injection h with h'
        injection h' with h3 h4
        subst h3
        intro x hx
        rcases List.mem_cons.mp hx with rfl | hx
        · exact hP s x s1 h1
        · exact ih s1 as_ s2 h2 x hx

lemma readFileInfo_index_lt (s : List Nat) (fi : file_info) (s' : List Nat)
    (h : readFileInfo s = some (fi, s')) : fi.index < 65536 := by
  rw [readFileInfo] at h
  cases h1 : readInt 2 s with
  | none =>
    rw [h1] at h
    cases h
  | some pr =>
    obtain ⟨idx, s1⟩ := pr
    rw [h1] at h
    dsimp only at h
    cases h2 : readBytes 16 s1 with
    | none =>
      rw [h2] at h
      cases h
    | some pr2 =>
      obtain ⟨hs_, s2⟩ := pr2
      rw [h2] at h
      dsimp only at h
      cases h3 : readInt 4 s2 with
      | none =>
        rw [h3] at h
        cases h
      | some pr3 =>
        obtain ⟨sz, s3⟩ := pr3
        rw [h3] at h
        dsimp only at h
        injection h with h'
        injection h' with h4 h5
        subst h4
        have := readInt_lt 2 s idx s1 h1
        simpa using this

lemma readObject_bounds (s : List Nat) (o : object) (s' : List Nat)
    (h : readObject s = some (o, s')) :
    o.file_info_indexes.length < 65536 ∧
    ∀ i ∈ o.file_info_indexes, i < 65536 := by
  rw [readObject] at h
  cases h1 : readInt 2 s with
  | none =>
    rw [h1] at h
    cases h
  | some pr =>
    obtain ⟨m, s1⟩ := pr
    rw [h1] at h
    dsimp only at h
    cases h2 : readListN (readInt 2) m s1 with
    | none =>
      rw [h2] at h
      cases h
    | some pr2 =>
      obtain ⟨idxs, s2⟩ := pr2
      rw [h2] at h
      dsimp only at h
      cases h3 : readBytes 16 s2 with
      | none =>
        rw [h3] at h
        cases h
      | some pr3 =>
        obtain ⟨hs_, s3⟩ := pr3
        rw [h3] at h
        dsimp only at h
        cases h4 : readInt 4 s3 with
        | none =>
          rw [h4] at h
          cases h
        | some pr4 =>
          obtain ⟨sz, s4⟩ := pr4
          rw [h4] at h
          dsimp only at h
          injection h with h'
          injection h' with h5 h6
          subst h5
          constructor
          · rw [readListN_length (readInt 2) m s1 idxs s2 h2]
            have := readInt_lt 2 s m s1 h1
            simpa using this
          · intro i hi
            have := readListN_mem (readInt 2) (fun v => v < 65536)
              (fun sa va sa' hva => by
                have := readInt_lt 2 sa va sa' hva
                simpa using this) m s1 idxs s2 h2 i hi
            exact this

/-- What a successful decode does guarantee: every count and index fits
the 16-bit field it was read from.  No check against the lengths of the
target sequences is performed. -/
lemma read_manifest_width_bounds (s : List Nat) (mf : manifest)
    (h : read_manifest s = some mf) :
    mf.files.length < 65536 ∧ mf.file_infos.length < 65536 ∧
    mf.objects.length < 65536 ∧
    (∀ fi ∈ mf.file_infos, fi.index < 65536) ∧
    ∀ o ∈ mf.objects,
      o.file_info_indexes.length < 65536 ∧
      ∀ i ∈ o.file_info_indexes, i < 65536 := by
  rw [read_manifest] at h
  by_cases hs : s = []
  · rw [if_pos hs] at h
    injection h with h'
    subst h'
    refine ⟨by decide, by decide, by decide, ?_, ?_⟩ <;> simp [manifest.empty]
  · rw [if_neg hs] at h
    cases h1 : readInt 4 s with
    | none => rw [h1] at h; cases h
    | some pr1 =>
      obtain ⟨magic, s1⟩ := pr1
      rw [h1] at h
      dsimp only at h
      by_cases hm : magic ≠ MAGIC
      · rw [if_pos hm] at h
        cases h
      · rw [if_neg hm] at h
        cases h2 : readInt 2 s1 with
        | none => rw [h2] at h; cases h
        | some pr2 =>
          obtain ⟨version, s2⟩ := pr2
          rw [h2] at h
          dsimp only at h
          by_cases hv : version ≠ VERSION
          · rw [if_pos hv] at h
            cases h
          · rw [if_neg hv] at h
            cases h3 : readInt 2 s2 with
            | none => rw [h3] at h; cases h
            | some pr3 =>
              obtain ⟨nf, s3⟩ := pr3
              rw [h3] at h
              dsimp only at h
              cases h4 : readListN readStr nf s3 with
              | none => rw [h4] at h; cases h
              | some pr4 =>
                obtain ⟨fs, s4⟩ := pr4
                rw [h4] at h
                dsimp only at h
                cases h5 : readInt 2 s4 with
                | none => rw [h5] at h; cases h
                | some pr5 =>
                  obtain ⟨nfi, s5⟩ := pr5
                  rw [h5] at h
                  dsimp only at h
                  cases h6 : readListN readFileInfo nfi s5 with
                  | none => rw [h6] at h; cases h
                  | some pr6 =>
                    obtain ⟨fis, s6⟩ := pr6
                    rw [h6] at h
                    dsimp only at h
                    cases h7 : readInt 2 s6 with
                    | none => rw [h7] at h; cases h
                    | some pr7 =>
                      obtain ⟨no, s7⟩ := pr7
                      rw [h7] at h
                      dsimp only at h
                      cases h8 : readListN readObject no s7 with
                      | none => rw [h8] at h; cases h
                      | some pr8 =>
                        obtain ⟨objs, s8⟩ := pr8
                        rw [h8] at h
                        dsimp only at h
                        injection h with h'
                        subst h'
                        refine ⟨?_, ?_, ?_, ?_, ?_⟩
                        · rw [readListN_length readStr nf s3 fs s4 h4]
                          have := readInt_lt 2 s2 nf s3 h3
                          simpa using this
                        · rw [readListN_length readFileInfo nfi s5 fis s6 h6]
                          have := readInt_lt 2 s4 nfi s5 h5
                          simpa using this
                        · rw [readListN_length readObject no s7 objs s8 h8]
                          have := readInt_lt 2 s6 no s7 h7
                          simpa using this
                        · exact readListN_mem readFileInfo
                            (fun fi => fi.index < 65536)
                            (fun sa a sa' ha =>
                              readFileInfo_index_lt sa a sa' ha)
                            nfi s5 fis s6 h6
                        · exact readListN_mem readObject
                            (fun o => o.file_info_indexes.length < 65536 ∧
                              ∀ i ∈ o.file_info_indexes, i < 65536)
                            (fun sa a sa' ha => readObject_bounds sa a sa' ha)
                            no s7 objs s8 h8

lemma findMatch_fst_sound (oracle : PathB → Option file_hash) (mf : manifest) :
    ∀ (objs : List object) (c : Cache), CacheSound oracle c →
      (findMatch oracle mf objs c).1 =
        (objs.find? (objMatches oracle mf)).map (fun o => o.hash) := by
  intro objs
  induction objs with
  | nil => intro c _; rfl
  | cons o rest ih =>
    intro c hc
    have h := verify_object_ok_sound oracle mf o c hc
    simp only [findMatch, List.find?_cons]
    cases hm : objMatches oracle mf o with
    | true =>
      rw [if_pos (by rw [h.1, hm])]
      simp
    | false =>
      rw [if_neg (by rw [h.1, hm]; simp)]
      simpa using ih _ h.2

lemma findMatch_some_of_empty (oracle : PathB → Option file_hash)
    (mf : manifest) :
    ∀ (objs : List object) (c : Cache),
      (∃ o ∈ objs, o.file_info_indexes = []) →
      ∃ fh, (findMatch oracle mf objs c).1 = some fh := by
  intro objs
  induction objs with
  | nil =>
    intro c h
    rcases h with ⟨o, ho, _⟩
    cases ho
  | cons o rest ih =>
    intro c h
    simp only [findMatch]
    by_cases hok : (verify_object oracle mf o c).ok = true
    · rw [if_pos hok]
      exact ⟨o.hash, rfl⟩
    · rw [if_neg hok]
      rcases h with ⟨o', ho', he⟩
      rcases List.mem_cons.mp ho' with rfl | ho'
      · exact absurd (show (verify_object oracle mf o' c).ok = true by
          rw [verify_object, he]; rfl) hok
      · exact ih (verify_object oracle mf o c).cache ⟨o', ho', he⟩

lemma manifest_put_failure (env : PutEnv) (oh : file_hash)
    (inc : List (PathB × file_hash)) (b : List Nat)
    (h : (manifest_put env oh inc (some b)).1 = false) :
    (manifest_put env oh inc (some b)).2 = some b := by
  unfold manifest_put at h ⊢
  simp only [Option.getD_some] at h ⊢
  cases ho : env.openOk
  · simp [ho]
  · simp only [ho, Bool.not_true] at h ⊢
    cases hl : env.lockOk
    · simp [hl]
    · simp only [hl, Bool.not_true] at h ⊢
      cases hrm : read_manifest b
      · simp [hrm]
      · simp only [hrm] at h ⊢
        cases ht : env.tmpOpenOk
        · simp [ht]
        · simp only [ht, Bool.not_true] at h ⊢
          cases hw : env.writeOk
          · simp [hw]
          · simp only [hw, Bool.not_true] at h ⊢
            cases hr : env.renameOk
            · simp [hr]
            · simp only [hr, Bool.not_true] at h
              simp at h

/-! ## Claim theorems -/

/-- C1: verification of one object entry succeeds if and only if, for every
file_info index the object references, the hashing collaborator currently
reports exactly the recorded 16-byte hash and size for the referenced path;
a failed hashing (oracle `none`) cannot satisfy the right-hand side, so it
yields a non-match — `verify_object` returns `false` totally instead of
propagating a fatal error.  The cache may be pre-populated as long as it
agrees with the oracle, which is invariant throughout a lookup. -/
theorem c1_verify_object_iff (oracle : PathB → Option file_hash)
    (mf : manifest) (obj : object) (c : Cache) (hc : CacheSound oracle c) :
    (verify_object oracle mf obj c).ok = true ↔
      ∀ i ∈ obj.file_info_indexes,
        oracle (mf.files.getD (mf.file_infos.getD i fiDflt).index [])
          = some ⟨(mf.file_infos.getD i fiDflt).hash,
                  (mf.file_infos.getD i fiDflt).size⟩ := by
  rw [(verify_object_ok_sound oracle mf obj c hc).1]
  simp only [objMatches, List.all_eq_true, decide_eq_true_eq]

theorem c1_verify_object_iff_witness :
    CacheSound oracleZero [] ∧
    (verify_object oracleZero ⟨[[97]], [⟨0, List.replicate 16 0, 0⟩], []⟩
      ⟨[0], ⟨List.replicate 16 1, 5⟩⟩ []).ok = true :=
  ⟨cacheSound_empty oracleZero,
    (c1_verify_object_iff oracleZero ⟨[[97]], [⟨0, List.replicate 16 0, 0⟩], []⟩
      ⟨[0], ⟨List.replicate 16 1, 5⟩⟩ [] (cacheSound_empty oracleZero)).mpr
      (by decide)⟩

/-- C2: lookup examines the decoded objects in reverse insertion order and
returns the `object_hash` of the first (i.e. most recently appended) object
whose fingerprints all match the current filesystem state, `none` if no
object matches. -/
theorem c2_lookup_newest_first (oracle : PathB → Option file_hash)
    (bytes : List Nat) (mf : manifest) (h : read_manifest bytes = some mf) :
    manifest_get_bytes oracle bytes =
      (mf.objects.reverse.find? (objMatches oracle mf)).map
        (fun o => o.hash) := by
  unfold manifest_get_bytes
  rw [h]
  exact findMatch_fst_sound oracle mf mf.objects.reverse []
    (cacheSound_empty oracle)

theorem c2_lookup_newest_first_witness :
    read_manifest twoObjBytes
      = some ⟨[[97]], [⟨0, List.replicate 16 0, 0⟩],
          [⟨[0], ⟨List.replicate 16 1, 5⟩⟩, ⟨[0], ⟨List.replicate 16 2, 6⟩⟩]⟩ ∧
    manifest_get_bytes oracleZero twoObjBytes
      = some ⟨List.replicate 16 2, 6⟩ := by
  constructor
  · decide
  · rw [c2_lookup_newest_first oracleZero twoObjBytes
      ⟨[[97]], [⟨0, List.replicate 16 0, 0⟩],
        [⟨[0], ⟨List.replicate 16 1, 5⟩⟩, ⟨[0], ⟨List.replicate 16 2, 6⟩⟩]⟩
      (by decide)]
    decide

/-- C3: for every valid in-memory manifest (counts and per-object index-list
lengths within the 16-bit limits, paths and hashes representable in the
format), decoding the byte stream produced by encoding it reproduces the
manifest exactly — same files, file_infos and objects, in order. -/
theorem c3_round_trip (m : manifest) (hv : m.Valid) :
    read_manifest (write_manifest m) = some m :=
  read_write_manifest m hv

theorem c3_round_trip_witness :
    (⟨[[97]], [⟨0, List.replicate 16 3, 7⟩],
      [⟨[0], ⟨List.replicate 16 4, 9⟩⟩]⟩ : manifest).Valid ∧
    read_manifest (write_manifest
      ⟨[[97]], [⟨0, List.replicate 16 3, 7⟩],
        [⟨[0], ⟨List.replicate 16 4, 9⟩⟩]⟩)
      = some ⟨[[97]], [⟨0, List.replicate 16 3, 7⟩],
          [⟨[0], ⟨List.replicate 16 4, 9⟩⟩]⟩ :=
  ⟨by decide,
    c3_round_trip ⟨[[97]], [⟨0, List.replicate 16 3, 7⟩],
      [⟨[0], ⟨List.replicate 16 4, 9⟩⟩]⟩ (by decide)⟩

/-- C4: starting from any manifest without duplicates, after any sequence of
appends (each `included_files` table iterating every path once) the `files`
sequence has no duplicate path and the `file_infos` sequence has no
duplicate triple, regardless of how many objects reference the same include
files. -/
theorem c4_dedup_invariant (ops : List (file_hash × List (PathB × file_hash)))
    (mf : manifest) (hops : ∀ op ∈ ops, (op.2.map Prod.fst).Nodup)
    (hf : mf.files.Nodup) (hi : mf.file_infos.Nodup) :
    (applyAppends ops mf).files.Nodup ∧
    (applyAppends ops mf).file_infos.Nodup :=
  applyAppends_nodup ops mf hops hf hi

theorem c4_dedup_invariant_witness :
    (∀ op ∈ opsW, (op.2.map Prod.fst).Nodup) ∧
    manifest.empty.files.Nodup ∧ manifest.empty.file_infos.Nodup ∧
    ((applyAppends opsW manifest.empty).files.Nodup ∧
      (applyAppends opsW manifest.empty).file_infos.Nodup) :=
  ⟨by decide, by decide, by decide,
    c4_dedup_invariant opsW manifest.empty (by decide) (by decide) (by decide)⟩

/-- C5 (refuted — code bug): the implementation performs no capacity check.
Appending one more object to a manifest already holding 65535 leaves 65536
objects, and `write_manifest` still encodes it: `WRITE_INT(2, n_objects)`
silently writes the count modulo 2^16 — the bytes `[0, 0]`, identical to
the encoding of a zero count — instead of the append failing before
encoding.  (The C `uint16_t` loop counter additionally cycles at such
counts; the truncated count field shown here is what reaches the stream.) -/
theorem c5_capacity_overflow_wraps :
    (add_object_entry bigM ⟨List.replicate 16 0, 0⟩ []).objects.length
      = 65536 ∧
    write_manifest (add_object_entry bigM ⟨List.replicate 16 0, 0⟩ [])
      = [99, 67, 109, 70, 0, 0, 0, 0, 0, 0, 0, 0]
        ++ (add_object_entry bigM ⟨List.replicate 16 0, 0⟩ []).objects.flatMap
            writeObject ∧
    writeInt 2 65536 = writeInt 2 0 := by
  have hlen : (add_object_entry bigM ⟨List.replicate 16 0, 0⟩ []).objects.length
      = 65536 := by
    have hobjs : (add_object_entry bigM ⟨List.replicate 16 0, 0⟩ []).objects
        = bigM.objects ++ [⟨[], ⟨List.replicate 16 0, 0⟩⟩] := rfl
    have h2 : bigM.objects.length = 65535 := by
      unfold bigM
      dsimp only
      exact List.length_replicate 65535 _
    rw [hobjs, List.length_append, h2, List.length_singleton]
  refine ⟨hlen, ?_, by decide⟩
  have hfiles : (add_object_entry bigM ⟨List.replicate 16 0, 0⟩ []).files
      = [] := rfl
  have hinfos : (add_object_entry bigM ⟨List.replicate 16 0, 0⟩ []).file_infos
      = [] := rfl
  unfold write_manifest
  rw [hfiles, hinfos, hlen]
  rw [show writeInt 4 MAGIC = [99, 67, 109, 70] from by decide,
    show writeInt 2 VERSION = [0, 0] from by decide,
    show writeInt 2 ([] : List PathB).length = [0, 0] from by decide,
    show writeInt 2 ([] : List file_info).length = [0, 0] from by decide,
    show writeInt 2 65536 = [0, 0] from by decide]
  simp

/-- C6 (refuted): `read_manifest` performs no bounds validation on the
indexes it reads.  This stream declares zero files yet its single file_info
carries `file_index = 7`; decode accepts it, violating the claimed
invariant. -/
theorem c6_counterexample :
    read_manifest badIndexBytes
      = some ⟨[], [⟨7, List.replicate 16 0, 0⟩], []⟩ ∧
    ¬ (⟨[], [⟨7, List.replicate 16 0, 0⟩], []⟩ : manifest).IndexesInBounds := by
  constructor
  · decide
  · decide

/-- C6 (amended): a successful decode guarantees only the field-width
bounds — each count is below 2^16 and every index read from a 2-byte field
is below 2^16; indexes are not checked against the lengths of their target
sequences. -/
theorem c6_decode_width_bounds (s : List Nat) (mf : manifest)
    (h : read_manifest s = some mf) :
    mf.files.length < 65536 ∧ mf.file_infos.length < 65536 ∧
    mf.objects.length < 65536 ∧
    (∀ fi ∈ mf.file_infos, fi.index < 65536) ∧
    ∀ o ∈ mf.objects,
      o.file_info_indexes.length < 65536 ∧
      ∀ i ∈ o.file_info_indexes, i < 65536 :=
  read_manifest_width_bounds s mf h

theorem c6_decode_width_bounds_witness :
    read_manifest badIndexBytes
      = some ⟨[], [⟨7, List.replicate 16 0, 0⟩], []⟩ ∧
    (⟨[], [⟨7, List.replicate 16 0, 0⟩], []⟩ : manifest).file_infos.length
      < 65536 :=
  ⟨by decide,
    (c6_decode_width_bounds badIndexBytes
      ⟨[], [⟨7, List.replicate 16 0, 0⟩], []⟩ (by decide)).2.1⟩

/-- C7: when `manifest_put` reports failure — whatever step failed (open,
lock, decode, temp-file open, write, or rename) — the backing file's
content is byte-for-byte what it was, and a subsequent lookup over that
content behaves exactly as before the failed append.  Replacement with the
new encoding happens only on the all-successful path. -/
theorem c7_append_atomic (env : PutEnv) (oh : file_hash)
    (inc : List (PathB × file_hash)) (b : List Nat)
    (oracle : PathB → Option file_hash)
    (h : (manifest_put env oh inc (some b)).1 = false) :
    (manifest_put env oh inc (some b)).2 = some b ∧
    manifest_get oracle (manifest_put env oh inc (some b)).2
      = manifest_get oracle (some b) := by
  have h2 := manifest_put_failure env oh inc b h
  exact ⟨h2, by rw [h2]⟩

theorem c7_append_atomic_witness :
    (manifest_put ⟨true, true, true, false, true⟩ ⟨List.replicate 16 1, 5⟩ []
      (some twoObjBytes)).1 = false ∧
    ((manifest_put ⟨true, true, true, false, true⟩ ⟨List.replicate 16 1, 5⟩ []
      (some twoObjBytes)).2 = some twoObjBytes ∧
     manifest_get oracleZero
        (manifest_put ⟨true, true, true, false, true⟩ ⟨List.replicate 16 1, 5⟩
          [] (some twoObjBytes)).2
      = manifest_get oracleZero (some twoObjBytes)) :=
  ⟨by decide,
    c7_append_atomic ⟨true, true, true, false, true⟩ ⟨List.replicate 16 1, 5⟩
      [] twoObjBytes oracleZero (by decide)⟩

/-- C8 (refuted): a path whose hashing fails is not inserted into the hash
cache, so it is re-hashed by every candidate object referencing it.  With
both objects of `twoObjBytes` referencing path `[97]` and hashing failing,
one lookup invokes the collaborator twice on the same path. -/
theorem c8_counterexample :
    manifest_get_calls oracleFail twoObjBytes = [[97], [97]] ∧
    ¬ (manifest_get_calls oracleFail twoObjBytes).Nodup := by
  constructor
  · decide
  · decide

/-- C8 (amended): within a single lookup the hash cache is shared across
all examined objects, so every path whose hashing succeeds is passed to the
collaborator at most once per lookup; only paths on which hashing fails
(which are not cached) can be re-hashed by later candidate objects. -/
theorem c8_hash_cache_shared (oracle : PathB → Option file_hash)
    (bytes : List Nat) :
    ((manifest_get_calls oracle bytes).filter
      (fun p => (oracle p).isSome)).Nodup := by
  unfold manifest_get_calls
  cases h : read_manifest bytes with
  | none => simp
  | some mf =>
    dsimp only
    exact (findMatch_calls oracle mf mf.objects.reverse []).2.2.2

/-- C9 (refuted): `manifest_get` releases the shared lock only in its
common epilogue (`fclose` at `out:`), after the verification loop — the
hashing collaborator is invoked while the shared lock is held, not after
its release as the spec claims. -/
theorem c9_counterexample :
    manifest_get_trace oracleZero oneObjBytes
      = [Ev.acquireShared, Ev.decodeBytes, Ev.hashCall [97], Ev.releaseLock] ∧
    ¬ releaseBeforeHashing (manifest_get_trace oracleZero oneObjBytes) := by
  constructor
  · decide
  · decide

/-- C9 (amended): in every `manifest_get` trace the shared lock is acquired
first, the bytes are decoded, all hashing happens next, and the lock is
released last — i.e. file-content hashing occurs between acquisition and
release, and the release is the final event of the call. -/
theorem c9_lock_held_through_hashing (oracle : PathB → Option file_hash)
    (bytes : List Nat) :
    ∃ ps : List PathB,
      manifest_get_trace oracle bytes
        = [Ev.acquireShared, Ev.decodeBytes] ++ ps.map Ev.hashCall
          ++ [Ev.releaseLock] := by
  unfold manifest_get_trace
  cases h : read_manifest bytes with
  | none => exact ⟨[], rfl⟩
  | some mf =>
    dsimp only
    exact ⟨(findMatch oracle mf mf.objects.reverse []).2.2, rfl⟩

/-- C10: an object whose include-file index set is empty matches every
filesystem state: its verification succeeds without invoking the hashing
collaborator and without touching the cache; an append with an empty
included-files mapping creates exactly such an object (as the last object);
and any lookup over a manifest containing such an object returns some
object hash, never a miss. -/
theorem c10_empty_object_always_matches (oracle : PathB → Option file_hash)
    (mf : manifest) (obj : object) (c : Cache) (bytes : List Nat)
    (hobj : obj.file_info_indexes = [])
    (hdec : read_manifest bytes = some mf)
    (hmem : obj ∈ mf.objects) :
    verify_object oracle mf obj c = ⟨true, c, []⟩ ∧
    (∀ (m : manifest) (oh : file_hash),
      (add_object_entry m oh []).objects.getLast? = some ⟨[], oh⟩) ∧
    ∃ fh, manifest_get_bytes oracle bytes = some fh := by
  refine ⟨?_, ?_, ?_⟩
  · rw [verify_object, hobj]
    rfl
  · intro m oh
    simp [add_object_entry, add_file_info_indexes]
  · unfold manifest_get_bytes
    rw [hdec]
    dsimp only
    exact findMatch_some_of_empty oracle mf mf.objects.reverse []
      ⟨obj, by simpa using hmem, hobj⟩

theorem c10_empty_object_always_matches_witness :
    (⟨[], ⟨List.replicate 16 3, 8⟩⟩ : object).file_info_indexes = [] ∧
    read_manifest emptyObjBytes
      = some ⟨[], [], [⟨[], ⟨List.replicate 16 3, 8⟩⟩]⟩ ∧
    (⟨[], ⟨List.replicate 16 3, 8⟩⟩ : object)
      ∈ (⟨[], [], [⟨[], ⟨List.replicate 16 3, 8⟩⟩]⟩ : manifest).objects ∧
    (manifest_get_bytes oracleFail emptyObjBytes).isSome = true :=
  ⟨rfl, by decide, by decide,
    Option.isSome_iff_exists.mpr
      (c10_empty_object_always_matches oracleFail
        ⟨[], [], [⟨[], ⟨List.replicate 16 3, 8⟩⟩]⟩
        ⟨[], ⟨List.replicate 16 3, 8⟩⟩ [] emptyObjBytes rfl (by decide)
        (by decide)).2.2⟩
